import Mathlib

/-!
# Verification of the regex AST core of `regex-soup-bot`

A shallow embedding of `src/regex/regex_tree.rs`: the ten-symbol alphabet,
the `RegexAst` tree, the recursive-descent parser built on `combine`
(modelled with explicit fuel and the consumed/empty failure discipline of
`combine`), the precedence-aware printer `show_with_precedence`, the
used-alphabet analysis, the three flattening passes, and the equivalence
entry point.  Matching through the external string-regex engine is modelled
by the denotational predicate `Matches`, which mirrors the structure of the
pattern emitted by `compile_to_epsilonless_regex`.
-/

/-- The closed ten-symbol alphabet (Rust `enum Alphabet`). -/
inductive Alphabet where
  | A | B | C | D | E | F | G | H | I | J
deriving DecidableEq

/-- `Alphabet::from_char`: case-insensitive mapping of the twenty letters,
any other character is a failure (modelled by `none`). -/
def alphabet_from_char (c : Char) : Option Alphabet :=
  if c = 'a' ∨ c = 'A' then some .A
  else if c = 'b' ∨ c = 'B' then some .B
  else if c = 'c' ∨ c = 'C' then some .C
  else if c = 'd' ∨ c = 'D' then some .D
  else if c = 'e' ∨ c = 'E' then some .E
  else if c = 'f' ∨ c = 'F' then some .F
  else if c = 'g' ∨ c = 'G' then some .G
  else if c = 'h' ∨ c = 'H' then some .H
  else if c = 'i' ∨ c = 'I' then some .I
  else if c = 'j' ∨ c = 'J' then some .J
  else none

/-- The canonical lower-case character of a symbol (Rust `Display for Alphabet`). -/
def alphabet_char : Alphabet → Char
  | .A => 'a'
  | .B => 'b'
  | .C => 'c'
  | .D => 'd'
  | .E => 'e'
  | .F => 'f'
  | .G => 'g'
  | .H => 'h'
  | .I => 'i'
  | .J => 'j'

/-- The regular-expression abstract syntax tree (Rust `enum RegexAst`).
`Vec<RegexAst>` children are modelled as `List RegexAst`. -/
inductive RegexAst where
  | epsilon
  | literal (a : Alphabet)
  | star (r : RegexAst)
  | concatenation (rs : List RegexAst)
  | alternation (rs : List RegexAst)

/-- Outcome of one `combine` sub-parser: a value plus the remaining input, or
a failure flagged with whether input was consumed before failing.  The flag
models `combine`'s consumed/empty error distinction, which governs both
`choice!` commitment and loop (`many`/`sep_by1`) termination. -/
inductive ParseRes (α : Type) where
  | ok (a : α) (rest : List Char)
  | err (consumed : Bool)
deriving DecidableEq

/-- The two top-level failure kinds of `RegexAst::parse_str`: a `combine`
error (`SyntaxError`) or a successful sub-parse with leftover input
(`UnparsedTail`, carrying the tail). -/
inductive ParseErr where
  | syntaxError
  | unparsedTail (rest : List Char)
deriving DecidableEq

/-- Number of leading `'*'` characters (the `many(char('*'))` loop). -/
def starCount : List Char → Nat
  | [] => 0
  | c :: r => if c = '*' then starCount r + 1 else 0

/-- Input remaining after the leading `'*'` characters. -/
def starDrop : List Char → List Char
  | [] => []
  | c :: r => if c = '*' then starDrop r else c :: r

mutual

/-- `regex_parser_`'s outer layer: `sep_by1(parse_concat, char('|'))`,
collapsing a one-element list to the lone element (Rust lines 161-167).
The fuel argument is decremented on every mutual call; it only bounds the
recursion depth and is chosen large enough by `parse_str`. -/
def parseExpr : Nat → List Char → ParseRes RegexAst
  | 0, _ => .err false
  | n + 1, s =>
    match parseConcat n s with
    | .err b => .err b
    | .ok t r => altLoop n [t] r

/-- The `many(char('|').with(parse_concat))` loop of `sep_by1`: a separator
followed by a failing element is a consumed failure, which aborts the whole
parse (as in `combine`); no separator ends the loop. -/
def altLoop : Nat → List RegexAst → List Char → ParseRes RegexAst
  | 0, _, _ => .err false
  | n + 1, acc, s =>
    match s with
    | '|' :: r =>
      match parseConcat n r with
      | .ok t r2 => altLoop n (t :: acc) r2
      | .err _ => .err true
    | _ =>
      match acc.reverse with
      | [t] => .ok t s
      | ts => .ok (.alternation ts) s

/-- `parse_concat = many1(parse_repetitions)`, collapsing a one-element list
to the lone element (Rust lines 153-159). -/
def parseConcat : Nat → List Char → ParseRes RegexAst
  | 0, _ => .err false
  | n + 1, s =>
    match parseReps n s with
    | .err b => .err b
    | .ok t r => concatLoop n [t] r

/-- The `many1` loop: keep parsing repetitions; an empty failure ends the
loop, a consumed failure aborts it (as in `combine`). -/
def concatLoop : Nat → List RegexAst → List Char → ParseRes RegexAst
  | 0, _, _ => .err false
  | n + 1, acc, s =>
    match parseReps n s with
    | .ok t r => concatLoop n (t :: acc) r
    | .err true => .err true
    | .err false =>
      match acc.reverse with
      | [t] => .ok t s
      | ts => .ok (.concatenation ts) s

/-- `parse_repetitions`: an atom followed by any number of `'*'`; one or
more stars collapse to a single `Star` wrapper (Rust lines 143-151). -/
def parseReps : Nat → List Char → ParseRes RegexAst
  | 0, _ => .err false
  | n + 1, s =>
    match parseAtom n s with
    | .err b => .err b
    | .ok t r =>
      if starCount r = 0 then .ok t r else .ok (.star t) (starDrop r)

/-- `parse_epsilon_literal_or_parens` (Rust lines 130-141): `'ε'`, a letter
checked against `Alphabet::from_char` (a letter outside the alphabet is a
consumed failure, since `letter()` consumed it before `unexpected_any`), or
a parenthesised expression (after `'('` every failure is consumed).  The
`letter()` test is modelled by `Char.isAlpha`; the source's `letter()` is
Unicode-alphabetic, which differs only in the consumed flag of failures on
non-ASCII letters other than `'ε'`. -/
def parseAtom : Nat → List Char → ParseRes RegexAst
  | 0, _ => .err false
  | n + 1, s =>
    match s with
    | [] => .err false
    | 'ε' :: r => .ok .epsilon r
    | '(' :: r =>
      match parseExpr n r with
      | .ok t (')' :: r2) => .ok t r2
      | .ok _ _ => .err true
      | .err _ => .err true
    | c :: r =>
      if c.isAlpha then
        match alphabet_from_char c with
        | some a => .ok (.literal a) r
        | none => .err true
      else .err false

end

/-- Fuel sufficient for `parseExpr` on the given input: each character can
account for only boundedly many mutual calls. -/
def parseFuel (s : List Char) : Nat := 8 * s.length + 8

/-- `RegexAst::parse_str` (Rust lines 181-191): run the parser, demand that
the entire input was consumed, and classify the failure. -/
def parse_str (s : List Char) : Except ParseErr RegexAst :=
  match parseExpr (parseFuel s) s with
  | .ok t [] => .ok t
  | .ok _ r => .error (.unparsedTail r)
  | .err _ => .error .syntaxError

/-- Rust `enum FmtPrecedence` with its derived order
`Alternation < Concatenation < Star`, modelled through `precLevel`. -/
inductive FmtPrecedence where
  | alternation | concatenation | star
deriving DecidableEq

/-- The position of a precedence level in the derived `Ord` of
`FmtPrecedence`. -/
def precLevel : FmtPrecedence → Nat
  | .alternation => 0
  | .concatenation => 1
  | .star => 2

mutual

/-- `show_with_precedence` (Rust lines 392-426); strings are modelled as
character lists.  A `Concatenation`/`Alternation` parenthesises itself iff
the context precedence is strictly greater; children of both are rendered
at `Concatenation` precedence, a `Star` child at `Star` precedence. -/
def show_with_precedence : FmtPrecedence → RegexAst → List Char
  | _, .epsilon => ['ε']
  | _, .literal a => [alphabet_char a]
  | _, .star r => show_with_precedence .star r ++ ['*']
  | prec, .concatenation rs =>
    if precLevel .concatenation < precLevel prec then
      '(' :: showCatList rs ++ [')']
    else showCatList rs
  | prec, .alternation rs =>
    if precLevel .alternation < precLevel prec then
      '(' :: showAltList rs ++ [')']
    else showAltList rs

/-- Children of a `Concatenation`, joined with nothing. -/
def showCatList : List RegexAst → List Char
  | [] => []
  | [r] => show_with_precedence .concatenation r
  | r :: rs => show_with_precedence .concatenation r ++ showCatList rs

/-- Children of an `Alternation`, joined with `'|'`. -/
def showAltList : List RegexAst → List Char
  | [] => []
  | [r] => show_with_precedence .concatenation r
  | r :: rs => show_with_precedence .concatenation r ++ '|' :: showAltList rs

end

/-- `Display for RegexAst`: render at the loosest (`Alternation`) context. -/
def render (t : RegexAst) : List Char := show_with_precedence .alternation t

mutual

/-- `RegexAst::used_alphabets` (Rust lines 240-257).  The source drains an
explicit work list into a `HashSet`; the set it accumulates is exactly the
union of the literals of the tree, computed here by structural recursion. -/
def used_alphabets : RegexAst → Finset Alphabet
  | .epsilon => ∅
  | .literal a => {a}
  | .star r => used_alphabets r
  | .concatenation rs => used_alphabets_list rs
  | .alternation rs => used_alphabets_list rs

/-- Union of the used-alphabet sets of a list of children. -/
def used_alphabets_list : List RegexAst → Finset Alphabet
  | [] => ∅
  | r :: rs => used_alphabets r ∪ used_alphabets_list rs

end

/-- The `flat_map` step of `flatten_alternations`: splice the children of a
direct `Alternation` child, keep any other child as is. -/
def spliceAlt : List RegexAst → List RegexAst
  | [] => []
  | .alternation xs :: ts => xs ++ spliceAlt ts
  | t :: ts => t :: spliceAlt ts

/-- The `flat_map` step of `flatten_consecutive_concatenations`: splice the
children of a direct `Concatenation` child. -/
def spliceCat : List RegexAst → List RegexAst
  | [] => []
  | .concatenation xs :: ts => xs ++ spliceCat ts
  | t :: ts => t :: spliceCat ts

mutual

/-- `RegexAst::flatten_alternations` (Rust lines 285-307): recursively
flatten children, collapse a singleton `Alternation`, and splice direct
`Alternation` children of an `Alternation`. -/
def flatten_alternations : RegexAst → RegexAst
  | .epsilon => .epsilon
  | .literal a => .literal a
  | .star r => .star (flatten_alternations r)
  | .concatenation rs => .concatenation (flatten_alternations_list rs)
  | .alternation [r] => flatten_alternations r
  | .alternation rs => .alternation (spliceAlt (flatten_alternations_list rs))

/-- The `apply_to_ast_vec` helper of `flatten_alternations`: map
`flatten_alternations` over a vector of children. -/
def flatten_alternations_list : List RegexAst → List RegexAst
  | [] => []
  | r :: rs => flatten_alternations r :: flatten_alternations_list rs

end

/-- `RegexAst::flatten_consecutive_concatenations` (Rust lines 309-333).
Note that its `apply_to_ast_vec` helper maps `flatten_alternations` — not
`flatten_consecutive_concatenations` — over the children (Rust line 311),
so only the `Star` and singleton-`Concatenation` arms recurse into this
pass itself. -/
def flatten_consecutive_concatenations : RegexAst → RegexAst
  | .epsilon => .epsilon
  | .literal a => .literal a
  | .star r => .star (flatten_consecutive_concatenations r)
  | .concatenation [r] => flatten_consecutive_concatenations r
  | .concatenation rs => .concatenation (spliceCat (flatten_alternations_list rs))
  | .alternation rs => .alternation (flatten_alternations_list rs)

mutual

/-- `RegexAst::flatten_consecutive_stars` (Rust lines 335-354): flatten the
child of a `Star`, and when the flattened child is itself a `Star`, return
the grand-child itself — `RegexAst::Star(grand_child) => *grand_child`
(Rust line 347) strips BOTH stars, mapping `Star(Star(x))` to `x`, not to
the `Star(x)` that the source's own doc comment (lines 364-365) and the
spec (§4.3) describe. -/
def flatten_consecutive_stars : RegexAst → RegexAst
  | .epsilon => .epsilon
  | .literal a => .literal a
  | .star r =>
    match flatten_consecutive_stars r with
    | .star inner => inner
    | flat => .star flat
  | .concatenation rs => .concatenation (flatten_consecutive_stars_list rs)
  | .alternation rs => .alternation (flatten_consecutive_stars_list rs)

/-- The `apply_to_ast_vec` helper of `flatten_consecutive_stars`. -/
def flatten_consecutive_stars_list : List RegexAst → List RegexAst
  | [] => []
  | r :: rs => flatten_consecutive_stars r :: flatten_consecutive_stars_list rs

end

/-- `RegexAst::flatten` (Rust lines 374-378): the three passes in order. -/
def flatten (t : RegexAst) : RegexAst :=
  flatten_consecutive_stars
    (flatten_consecutive_concatenations (flatten_alternations t))

mutual

/-- Conformance to the spec's data model (§3): every `Concatenation` and
`Alternation` has at least one child. -/
def wellFormed : RegexAst → Bool
  | .epsilon => true
  | .literal _ => true
  | .star r => wellFormed r
  | .concatenation [] => false
  | .concatenation (r :: rs) => wellFormed r && wellFormedList rs
  | .alternation [] => false
  | .alternation (r :: rs) => wellFormed r && wellFormedList rs

/-- `wellFormed` on every element of a list of children. -/
def wellFormedList : List RegexAst → Bool
  | [] => true
  | r :: rs => wellFormed r && wellFormedList rs

end

/-- No element of the list is itself a `Concatenation`. -/
def noDirectCat : List RegexAst → Bool
  | [] => true
  | .concatenation _ :: _ => false
  | _ :: rs => noDirectCat rs

/-- No element of the list is itself an `Alternation`. -/
def noDirectAlt : List RegexAst → Bool
  | [] => true
  | .alternation _ :: _ => false
  | _ :: rs => noDirectAlt rs

mutual

/-- The normalized form the spec's invariant (§3) describes: no
`Alternation` directly under an `Alternation`, no `Concatenation` directly
under a `Concatenation`, no `Star` directly under a `Star`, and no
`Alternation`/`Concatenation` with exactly one child. -/
def normalizedForm : RegexAst → Bool
  | .epsilon => true
  | .literal _ => true
  | .star (.star _) => false
  | .star r => normalizedForm r
  | .concatenation rs =>
    decide (2 ≤ rs.length) && noDirectCat rs && normalizedFormList rs
  | .alternation rs =>
    decide (2 ≤ rs.length) && noDirectAlt rs && normalizedFormList rs

/-- `normalizedForm` on every element of a list of children. -/
def normalizedFormList : List RegexAst → Bool
  | [] => true
  | r :: rs => normalizedForm r && normalizedFormList rs

end

mutual

/-- Every `Concatenation` or `Alternation` node anywhere in the tree has at
least two children (what the parser's collapsing of one-element lists
guarantees). -/
def atLeastTwoChildren : RegexAst → Bool
  | .epsilon => true
  | .literal _ => true
  | .star r => atLeastTwoChildren r
  | .concatenation rs => decide (2 ≤ rs.length) && atLeastTwoChildrenList rs
  | .alternation rs => decide (2 ≤ rs.length) && atLeastTwoChildrenList rs

/-- `atLeastTwoChildren` on every element of a list of children. -/
def atLeastTwoChildrenList : List RegexAst → Bool
  | [] => true
  | r :: rs => atLeastTwoChildren r && atLeastTwoChildrenList rs

end

/-- The anchored matching semantics of the pattern that
`compile_to_epsilonless_regex` emits for a tree, applied through the
external string-regex engine (`RegexAst::matches`, Rust lines 216-219; the
engine itself is an external collaborator per spec §1).  Constructors
mirror the emitted pattern: `Epsilon` ↦ `(.{0})`, a literal ↦ its
character, `Star` ↦ `(p)*`, `Concatenation` ↦ the juxtaposition of its
children's patterns (so an empty child list matches only the empty word),
`Alternation` ↦ the `|`-join of its children's patterns (likewise empty ↦
the empty word). -/
inductive Matches : RegexAst → List Alphabet → Prop where
  | eps : Matches .epsilon []
  | lit (a : Alphabet) : Matches (.literal a) [a]
  | starNil (r : RegexAst) : Matches (.star r) []
  | starApp {r : RegexAst} {w1 w2 : List Alphabet} :
      Matches r w1 → Matches (.star r) w2 → Matches (.star r) (w1 ++ w2)
  | catNil : Matches (.concatenation []) []
  | catCons {r : RegexAst} {rs : List RegexAst} {w1 w2 : List Alphabet} :
      Matches r w1 → Matches (.concatenation rs) w2 →
      Matches (.concatenation (r :: rs)) (w1 ++ w2)
  | altNil : Matches (.alternation []) []
  | altMem {rs : List RegexAst} {r : RegexAst} {w : List Alphabet} :
      r ∈ rs → Matches r w → Matches (.alternation rs) w

/-- Two trees denote the same language. -/
def LangEquiv (a b : RegexAst) : Prop := ∀ w, Matches a w ↔ Matches b w

/-- `RegexAst::equivalent_to` (Rust lines 259-281): fast-reject on unequal
used-alphabet sets, otherwise delegate to the NFA language-equality check.
The NFA compilation and comparison are the external automaton service
(spec §§1, 4.6), abstracted here as the `langEq` argument. -/
def equivalent_to (langEq : RegexAst → RegexAst → Bool) (a b : RegexAst) : Bool :=
  if used_alphabets a = used_alphabets b then langEq a b else false

/-! ## Structural induction with membership hypotheses -/

/-- Structural induction over `RegexAst` giving membership hypotheses for
the children of `Concatenation` and `Alternation`. -/
def RegexAst.recMem {motive : RegexAst → Prop}
    (eps : motive .epsilon)
    (lit : ∀ a, motive (.literal a))
    (str : ∀ r, motive r → motive (.star r))
    (cat : ∀ rs, (∀ r ∈ rs, motive r) → motive (.concatenation rs))
    (alt : ∀ rs, (∀ r ∈ rs, motive r) → motive (.alternation rs)) :
    ∀ t, motive t
  | .epsilon => eps
  | .literal a => lit a
  | .star r => str r (RegexAst.recMem eps lit str cat alt r)
  | .concatenation rs =>
    cat rs (fun r _ => RegexAst.recMem eps lit str cat alt r)
  | .alternation rs =>
    alt rs (fun r _ => RegexAst.recMem eps lit str cat alt r)
termination_by t => sizeOf t
decreasing_by
  all_goals simp
  all_goals have h := List.sizeOf_lt_of_mem (by assumption : r ∈ rs)
  all_goals omega

/-! ## The flattening bug: claims C1, C2, C3 -/

/-- C1: the claim that `flatten` always returns a tree in normalized form
fails on the code: on `Alternation [Literal A, Concatenation [Literal B]]`
the pass `flatten_consecutive_concatenations` maps `flatten_alternations`
(not itself) over the children of an `Alternation`, so the singleton
`Concatenation` survives and the result of `flatten` is not normalized. -/
theorem flatten_not_normalized :
    flatten (.alternation [.literal .A, .concatenation [.literal .B]])
      = .alternation [.literal .A, .concatenation [.literal .B]] ∧
    normalizedForm
      (flatten (.alternation [.literal .A, .concatenation [.literal .B]]))
      = false :=
  ⟨rfl, rfl⟩

/-- C2: the claim that `flatten` is idempotent fails on the code: on the
triply nested concatenation
`Concatenation [Concatenation [Concatenation [A, B], C], D]` one
application of `flatten` splices only the outermost nesting (because the
concatenation pass maps `flatten_alternations` over children instead of
recursing into itself), so a second application changes the tree again. -/
theorem flatten_not_idempotent :
    flatten (.concatenation [.concatenation [.concatenation
        [.literal .A, .literal .B], .literal .C], .literal .D])
      = .concatenation [.concatenation [.literal .A, .literal .B],
          .literal .C, .literal .D] ∧
    flatten (flatten (.concatenation [.concatenation [.concatenation
        [.literal .A, .literal .B], .literal .C], .literal .D]))
      = .concatenation [.literal .A, .literal .B, .literal .C, .literal .D] ∧
    flatten (flatten (.concatenation [.concatenation [.concatenation
        [.literal .A, .literal .B], .literal .C], .literal .D]))
      ≠ flatten (.concatenation [.concatenation [.concatenation
        [.literal .A, .literal .B], .literal .C], .literal .D]) := by
  refine ⟨rfl, rfl, ?_⟩
  have h1 : flatten (flatten (.concatenation [.concatenation [.concatenation
        [.literal .A, .literal .B], .literal .C], .literal .D]))
      = .concatenation [.literal .A, .literal .B, .literal .C, .literal .D] := rfl
  have h2 : flatten (.concatenation [.concatenation [.concatenation
        [.literal .A, .literal .B], .literal .C], .literal .D])
      = .concatenation [.concatenation [.literal .A, .literal .B],
          .literal .C, .literal .D] := rfl
  rw [h1, h2]
  simp

/-- C3: the printer/parser round-trip claim fails on the code in its
structural part: rendering the triply nested concatenation gives `"abcd"`,
which re-parses to the fully flat `Concatenation [A, B, C, D]`, and the
buggy `flatten` does not map the original tree to that same normal form,
so `flatten (parse (render t)) ≠ flatten t`. -/
theorem roundtrip_not_flatten_equal :
    parse_str (render (.concatenation [.concatenation [.concatenation
        [.literal .A, .literal .B], .literal .C], .literal .D]))
      = .ok (.concatenation [.literal .A, .literal .B, .literal .C, .literal .D]) ∧
    flatten (.concatenation [.literal .A, .literal .B, .literal .C, .literal .D])
      ≠ flatten (.concatenation [.concatenation [.concatenation
        [.literal .A, .literal .B], .literal .C], .literal .D]) := by
  refine ⟨rfl, ?_⟩
  have h1 : flatten (.concatenation [.literal .A, .literal .B, .literal .C,
      .literal .D]) = .concatenation [.literal .A, .literal .B, .literal .C,
      .literal .D] := rfl
  have h2 : flatten (.concatenation [.concatenation [.concatenation
        [.literal .A, .literal .B], .literal .C], .literal .D])
      = .concatenation [.concatenation [.literal .A, .literal .B],
          .literal .C, .literal .D] := rfl
  rw [h1, h2]
  simp

/-! ## Parser precedence on concrete inputs: claim C8 -/

/-- C8: the three concrete parses from the spec: `"abc"` is a three-way
concatenation, `"ab|c"` an alternation of a concatenation and a literal,
and `"ab*|cd"` groups the star tightest, then concatenation, then the
alternation. -/
theorem parse_concrete_precedence :
    parse_str ['a', 'b', 'c']
      = .ok (.concatenation [.literal .A, .literal .B, .literal .C]) ∧
    parse_str ['a', 'b', '|', 'c']
      = .ok (.alternation [.concatenation [.literal .A, .literal .B],
          .literal .C]) ∧
    parse_str ['a', 'b', '*', '|', 'c', 'd']
      = .ok (.alternation
          [.concatenation [.literal .A, .star (.literal .B)],
           .concatenation [.literal .C, .literal .D]]) :=
  ⟨rfl, rfl, rfl⟩

/-! ## Top-level parse and whole-input consumption: claim C6 -/

/-- C6: `parse_str` returns an AST only when the sub-parse consumed the
entire input; a successful sub-parse with a nonempty leftover yields
`UnparsedTail` carrying exactly that leftover; a failing sub-parse yields
`SyntaxError`; and the concrete inputs `""`, `"("` and `"a|"` all fail with
`SyntaxError` (for `"("` the committed parenthesis and for `"a|"` the
committed separator turn the failure into a parse error rather than an
unparsed tail). -/
theorem parse_requires_full_consumption :
    (∀ s t, parse_str s = .ok t → parseExpr (parseFuel s) s = .ok t []) ∧
    (∀ s r, parse_str s = .error (.unparsedTail r) →
        r ≠ [] ∧ ∃ t, parseExpr (parseFuel s) s = .ok t r) ∧
    (∀ s, parse_str s = .error .syntaxError →
        ∃ b, parseExpr (parseFuel s) s = .err b) ∧
    parse_str [] = .error .syntaxError ∧
    parse_str ['('] = .error .syntaxError ∧
    parse_str ['a', '|'] = .error .syntaxError := by
  refine ⟨?_, ?_, ?_, rfl, rfl, rfl⟩
  · intro s t h
    unfold parse_str at h
    cases e : parseExpr (parseFuel s) s with
    | ok t2 r =>
      rw [e] at h
      cases r with
      | nil => simp at h; rw [h]
      | cons c cs => simp at h
    | err b => rw [e] at h; simp at h
  · intro s r h
    unfold parse_str at h
    cases e : parseExpr (parseFuel s) s with
    | ok t2 r2 =>
      rw [e] at h
      cases r2 with
      | nil => simp at h
      | cons c cs =>
        simp at h
        subst h
        exact ⟨by simp, t2, rfl⟩
    | err b => rw [e] at h; simp at h
  · intro s h
    unfold parse_str at h
    cases e : parseExpr (parseFuel s) s with
    | ok t2 r2 =>
      rw [e] at h
      cases r2 with
      | nil => simp at h
      | cons c cs => simp at h
    | err b => exact ⟨b, rfl⟩

/-- C6 witness: on the input `"a"` the parse succeeds and the sub-parse
consumed the whole input. -/
theorem parse_requires_full_consumption_witness :
    parseExpr (parseFuel ['a']) ['a'] = .ok (.literal .A) [] :=
  parse_requires_full_consumption.1 ['a'] (.literal .A) rfl

/-! ## Trailing-star collapse: claim C7 -/

/-- `starCount` of `k` stars followed by a star-free head is `k`. -/
theorem starCount_replicate (k : Nat) (rest : List Char)
    (h : rest.head? ≠ some '*') :
    starCount (List.replicate k '*' ++ rest) = k := by
  induction k with
  | zero =>
    cases rest with
    | nil => rfl
    | cons c cs =>
      have hc : c ≠ '*' := by intro hh; exact h (by simp [hh])
      simp [starCount, hc]
  | succ k ih => simp [List.replicate_succ, starCount, ih]

/-- `starDrop` of `k` stars followed by a star-free head is the tail. -/
theorem starDrop_replicate (k : Nat) (rest : List Char)
    (h : rest.head? ≠ some '*') :
    starDrop (List.replicate k '*' ++ rest) = rest := by
  induction k with
  | zero =>
    cases rest with
    | nil => rfl
    | cons c cs =>
      have hc : c ≠ '*' := by intro hh; exact h (by simp [hh])
      simp [starDrop, hc]
  | succ k ih => simp [List.replicate_succ, starDrop, ih]

/-- C7: whenever an atom parse succeeds and is followed by exactly `k`
consecutive `'*'` characters, the repetition layer wraps the atom in a
single `Star` if `k ≥ 1` and leaves it unchanged if `k = 0`; and
concretely `"a**"` parses to the same single-`Star` tree as `"a*"`. -/
theorem trailing_star_collapse :
    (∀ n s t r k rest, parseAtom n s = .ok t r →
        r = List.replicate k '*' ++ rest → rest.head? ≠ some '*' →
        parseReps (n + 1) s = .ok (if k = 0 then t else .star t) rest) ∧
    parse_str ['a', '*', '*'] = .ok (.star (.literal .A)) ∧
    parse_str ['a', '*'] = .ok (.star (.literal .A)) := by
  refine ⟨?_, rfl, rfl⟩
  intro n s t r k rest ha hr hh
  subst hr
  simp only [parseReps, ha]
  rw [starCount_replicate k rest hh, starDrop_replicate k rest hh]
  cases k with
  | zero => simp
  | succ k => simp

/-- C7 witness: the general collapse rule applied to the atom `'a'`
followed by two stars. -/
theorem trailing_star_collapse_witness :
    parseAtom 3 ['a', '*', '*'] = .ok (.literal .A) ['*', '*'] ∧
    parseReps 4 ['a', '*', '*'] = .ok (.star (.literal .A)) [] :=
  ⟨rfl, by
    simpa using trailing_star_collapse.1 3 ['a', '*', '*'] (.literal .A)
      ['*', '*'] 2 [] rfl rfl (by simp)⟩

/-! ## Parser output is partially normalized: claim C9 -/

/-- List form of `atLeastTwoChildren` as a membership statement. -/
theorem atLeastTwoChildrenList_iff (l : List RegexAst) :
    atLeastTwoChildrenList l = true ↔
      ∀ x ∈ l, atLeastTwoChildren x = true := by
  induction l with
  | nil => simp [atLeastTwoChildrenList]
  | cons r rs ih => simp [atLeastTwoChildrenList, ih]

/-- Every tree any layer of the parser returns at any fuel satisfies
`atLeastTwoChildren`: `Concatenation` and `Alternation` are only built from
accumulators of length at least two. -/
theorem parser_at_least_two_aux : ∀ n : Nat,
    (∀ s t r, parseAtom n s = .ok t r → atLeastTwoChildren t = true) ∧
    (∀ s t r, parseReps n s = .ok t r → atLeastTwoChildren t = true) ∧
    (∀ acc s t r, acc ≠ [] → (∀ x ∈ acc, atLeastTwoChildren x = true) →
        concatLoop n acc s = .ok t r → atLeastTwoChildren t = true) ∧
    (∀ s t r, parseConcat n s = .ok t r → atLeastTwoChildren t = true) ∧
    (∀ acc s t r, acc ≠ [] → (∀ x ∈ acc, atLeastTwoChildren x = true) →
        altLoop n acc s = .ok t r → atLeastTwoChildren t = true) ∧
    (∀ s t r, parseExpr n s = .ok t r → atLeastTwoChildren t = true) := by
  intro n
  induction n with
  | zero =>
    refine ⟨?_, ?_, ?_, ?_, ?_, ?_⟩
    · intro s t r h; simp [parseAtom] at h
    · intro s t r h; simp [parseReps] at h
    · intro acc s t r _ _ h; simp [concatLoop] at h
    · intro s t r h; simp [parseConcat] at h
    · intro acc s t r _ _ h; simp [altLoop] at h
    · intro s t r h; simp [parseExpr] at h
  | succ n ih =>
    obtain ⟨ihAtom, ihReps, ihCLoop, ihConcat, ihALoop, ihExpr⟩ := ih
    have hAtom : ∀ s t r, parseAtom (n + 1) s = .ok t r →
        atLeastTwoChildren t = true := by
      intro s t r h
      unfold parseAtom at h
      split at h
      · exact absurd h (by simp)
      · cases h; rfl
      · split at h
        · cases h; exact ihExpr _ _ _ (by assumption)
        · exact absurd h (by simp)
        · exact absurd h (by simp)
      · split at h
        · split at h
          · cases h; rfl
          · exact absurd h (by simp)
        · exact absurd h (by simp)
    have hReps : ∀ s t r, parseReps (n + 1) s = .ok t r →
        atLeastTwoChildren t = true := by
      intro s t r h
      unfold parseReps at h
      split at h
      · exact absurd h (by simp)
      · split at h
        · cases h; exact ihAtom _ _ _ (by assumption)
        · cases h
          have := ihAtom _ _ _ (by assumption)
          simpa [atLeastTwoChildren] using this
    have hCLoop : ∀ acc s t r, acc ≠ [] →
        (∀ x ∈ acc, atLeastTwoChildren x = true) →
        concatLoop (n + 1) acc s = .ok t r → atLeastTwoChildren t = true := by
      intro acc s t r hne hacc h
      unfold concatLoop at h
      split at h
      · refine ihCLoop _ _ _ _ (by simp) ?_ h
        intro x hx
        rcases List.mem_cons.mp hx with hx | hx
        · subst hx; exact ihReps _ _ _ (by assumption)
        · exact hacc x hx
      · exact absurd h (by simp)
      · cases hrev : acc.reverse with
        | nil => exact absurd (List.reverse_eq_nil_iff.mp hrev) hne
        | cons x xs =>
          rw [hrev] at h
          cases xs with
          | nil =>
            injection h with h1 h2
            subst h1
            refine hacc _ (List.mem_reverse.mp ?_)
            rw [hrev]
            exact List.mem_singleton.mpr rfl
          | cons y ys =>
            injection h with h1 h2
            subst h1
            simp only [atLeastTwoChildren, Bool.and_eq_true, decide_eq_true_eq]
            refine ⟨by simp, ?_⟩
            rw [atLeastTwoChildrenList_iff]
            intro z hz
            refine hacc z (List.mem_reverse.mp ?_)
            rw [hrev]
            exact hz
    have hConcat : ∀ s t r, parseConcat (n + 1) s = .ok t r →
        atLeastTwoChildren t = true := by
      intro s t r h
      unfold parseConcat at h
      split at h
      · exact absurd h (by simp)
      · refine ihCLoop _ _ _ _ (by simp) ?_ h
        intro x hx
        rw [List.mem_singleton.mp hx]
        exact ihReps _ _ _ (by assumption)
    have hALoop : ∀ acc s t r, acc ≠ [] →
        (∀ x ∈ acc, atLeastTwoChildren x = true) →
        altLoop (n + 1) acc s = .ok t r → atLeastTwoChildren t = true := by
      intro acc s t r hne hacc h
      unfold altLoop at h
      split at h
      · split at h
        · refine ihALoop _ _ _ _ (by simp) ?_ h
          intro x hx
          rcases List.mem_cons.mp hx with hx | hx
          · subst hx; exact ihConcat _ _ _ (by assumption)
          · exact hacc x hx
        · exact absurd h (by simp)
      · cases hrev : acc.reverse with
        | nil => exact absurd (List.reverse_eq_nil_iff.mp hrev) hne
        | cons x xs =>
          rw [hrev] at h
          cases xs with
          | nil =>
            injection h with h1 h2
            subst h1
            refine hacc _ (List.mem_reverse.mp ?_)
            rw [hrev]
            exact List.mem_singleton.mpr rfl
          | cons y ys =>
            injection h with h1 h2
            subst h1
            simp only [atLeastTwoChildren, Bool.and_eq_true, decide_eq_true_eq]
            refine ⟨by simp, ?_⟩
            rw [atLeastTwoChildrenList_iff]
            intro z hz
            refine hacc z (List.mem_reverse.mp ?_)
            rw [hrev]
            exact hz
    have hExpr : ∀ s t r, parseExpr (n + 1) s = .ok t r →
        atLeastTwoChildren t = true := by
      intro s t r h
      unfold parseExpr at h
      split at h
      · exact absurd h (by simp)
      · refine ihALoop _ _ _ _ (by simp) ?_ h
        intro x hx
        rw [List.mem_singleton.mp hx]
        exact ihConcat _ _ _ (by assumption)
    exact ⟨hAtom, hReps, hCLoop, hConcat, hALoop, hExpr⟩

/-- C9: every AST returned by a successful top-level parse has at least two
children in every `Concatenation` and every `Alternation` node, because the
parser collapses one-element sequences to the lone child before wrapping. -/
theorem parse_output_partially_normalized :
    ∀ s t, parse_str s = .ok t → atLeastTwoChildren t = true := by
  intro s t h
  unfold parse_str at h
  cases e : parseExpr (parseFuel s) s with
  | ok t2 r =>
    rw [e] at h
    cases r with
    | nil =>
      simp at h
      subst h
      exact (parser_at_least_two_aux (parseFuel s)).2.2.2.2.2 _ _ _ e
    | cons c cs => simp at h
  | err b => rw [e] at h; simp at h

/-- C9 witness: the parse of `"ab"` yields a two-child concatenation that
satisfies the invariant. -/
theorem parse_output_partially_normalized_witness :
    parse_str ['a', 'b'] = .ok (.concatenation [.literal .A, .literal .B]) ∧
    atLeastTwoChildren (.concatenation [.literal .A, .literal .B]) = true :=
  ⟨rfl, parse_output_partially_normalized ['a', 'b'] _ rfl⟩

/-! ## `flatten` preserves the used-alphabet set: claim C10 -/

/-- `used_alphabets_list` distributes over list append. -/
theorem used_alphabets_list_append (xs ys : List RegexAst) :
    used_alphabets_list (xs ++ ys)
      = used_alphabets_list xs ∪ used_alphabets_list ys := by
  induction xs with
  | nil => simp [used_alphabets_list]
  | cons x xs ih => simp [used_alphabets_list, ih, Finset.union_assoc]

/-- Splicing direct `Alternation` children does not change the used set. -/
theorem used_alphabets_spliceAlt (ts : List RegexAst) :
    used_alphabets_list (spliceAlt ts) = used_alphabets_list ts := by
  induction ts with
  | nil => rfl
  | cons t ts ih =>
    cases t <;>
      simp [spliceAlt, used_alphabets_list, used_alphabets,
        used_alphabets_list_append, ih]

/-- Splicing direct `Concatenation` children does not change the used set. -/
theorem used_alphabets_spliceCat (ts : List RegexAst) :
    used_alphabets_list (spliceCat ts) = used_alphabets_list ts := by
  induction ts with
  | nil => rfl
  | cons t ts ih =>
    cases t <;>
      simp [spliceCat, used_alphabets_list, used_alphabets,
        used_alphabets_list_append, ih]

/-- Pointwise preservation of the used set lifts to child lists mapped by
`flatten_alternations`. -/
theorem used_alphabets_list_fa (rs : List RegexAst)
    (h : ∀ r ∈ rs, used_alphabets (flatten_alternations r) = used_alphabets r) :
    used_alphabets_list (flatten_alternations_list rs)
      = used_alphabets_list rs := by
  induction rs with
  | nil => rfl
  | cons r rs ih =>
    simp only [flatten_alternations_list, used_alphabets_list]
    rw [h r (List.mem_cons_self r rs), ih (fun x hx => h x (List.mem_cons_of_mem r hx))]

/-- `flatten_alternations` preserves the used-alphabet set. -/
theorem used_alphabets_fa :
    ∀ t, used_alphabets (flatten_alternations t) = used_alphabets t := by
  intro t
  induction t using RegexAst.recMem with
  | eps => rfl
  | lit a => rfl
  | str r ih => simpa [flatten_alternations, used_alphabets] using ih
  | cat rs ih =>
    simp only [flatten_alternations, used_alphabets]
    exact used_alphabets_list_fa rs ih
  | alt rs ih =>
    match rs with
    | [] => rfl
    | [r] =>
      simp only [flatten_alternations, used_alphabets]
      rw [ih r (List.mem_singleton.mpr rfl)]
      simp [used_alphabets_list]
    | x :: y :: ys =>
      simp only [flatten_alternations, used_alphabets]
      rw [used_alphabets_spliceAlt]
      exact used_alphabets_list_fa _ ih

/-- `flatten_consecutive_concatenations` preserves the used-alphabet set. -/
theorem used_alphabets_fc :
    ∀ t, used_alphabets (flatten_consecutive_concatenations t)
      = used_alphabets t := by
  intro t
  induction t using RegexAst.recMem with
  | eps => rfl
  | lit a => rfl
  | str r ih => simpa [flatten_consecutive_concatenations, used_alphabets] using ih
  | cat rs ih =>
    match rs with
    | [] => rfl
    | [r] =>
      simp only [flatten_consecutive_concatenations, used_alphabets]
      rw [ih r (List.mem_singleton.mpr rfl)]
      simp [used_alphabets_list]
    | x :: y :: ys =>
      simp only [flatten_consecutive_concatenations, used_alphabets]
      rw [used_alphabets_spliceCat]
      exact used_alphabets_list_fa _ (fun r _ => used_alphabets_fa r)
  | alt rs ih =>
    simp only [flatten_consecutive_concatenations, used_alphabets]
    exact used_alphabets_list_fa _ (fun r _ => used_alphabets_fa r)

/-- Pointwise preservation of the used set lifts to child lists mapped by
`flatten_consecutive_stars`. -/
theorem used_alphabets_list_fs (rs : List RegexAst)
    (h : ∀ r ∈ rs,
      used_alphabets (flatten_consecutive_stars r) = used_alphabets r) :
    used_alphabets_list (flatten_consecutive_stars_list rs)
      = used_alphabets_list rs := by
  induction rs with
  | nil => rfl
  | cons r rs ih =>
    simp only [flatten_consecutive_stars_list, used_alphabets_list]
    rw [h r (List.mem_cons_self r rs), ih (fun x hx => h x (List.mem_cons_of_mem r hx))]

/-- `flatten_consecutive_stars` preserves the used-alphabet set. -/
theorem used_alphabets_fs :
    ∀ t, used_alphabets (flatten_consecutive_stars t) = used_alphabets t := by
  intro t
  induction t using RegexAst.recMem with
  | eps => rfl
  | lit a => rfl
  | str r ih =>
    simp only [flatten_consecutive_stars]
    cases hfs : flatten_consecutive_stars r with
    | star inner =>
      rw [hfs] at ih
      simpa [used_alphabets] using ih
    | epsilon => rw [hfs] at ih; simpa [used_alphabets] using ih
    | literal a => rw [hfs] at ih; simpa [used_alphabets] using ih
    | concatenation rs => rw [hfs] at ih; simpa [used_alphabets] using ih
    | alternation rs => rw [hfs] at ih; simpa [used_alphabets] using ih
  | cat rs ih =>
    simp only [flatten_consecutive_stars, used_alphabets]
    exact used_alphabets_list_fs rs ih
  | alt rs ih =>
    simp only [flatten_consecutive_stars, used_alphabets]
    exact used_alphabets_list_fs rs ih

/-- C10: `flatten` never changes the used-symbol set. -/
theorem used_alphabets_flatten :
    ∀ t, used_alphabets (flatten t) = used_alphabets t := by
  intro t
  unfold flatten
  rw [used_alphabets_fs, used_alphabets_fc, used_alphabets_fa]

/-! ## Inversion lemmas for the matching semantics -/

/-- `Epsilon` matches exactly the empty word. -/
theorem matches_epsilon_iff (w : List Alphabet) :
    Matches .epsilon w ↔ w = [] := by
  constructor
  · intro h; cases h; rfl
  · rintro rfl; exact .eps

/-- A literal matches exactly its one-symbol word. -/
theorem matches_literal_iff (a : Alphabet) (w : List Alphabet) :
    Matches (.literal a) w ↔ w = [a] := by
  constructor
  · intro h; cases h; rfl
  · rintro rfl; exact .lit a

/-- Unfolding of a `Star` match into its two constructors. -/
theorem matches_star_iff (r : RegexAst) (w : List Alphabet) :
    Matches (.star r) w ↔
      w = [] ∨ ∃ w1 w2, w = w1 ++ w2 ∧ Matches r w1 ∧ Matches (.star r) w2 := by
  constructor
  · intro h
    cases h with
    | starNil => exact .inl rfl
    | starApp h1 h2 => exact .inr ⟨_, _, rfl, h1, h2⟩
  · rintro (rfl | ⟨w1, w2, rfl, h1, h2⟩)
    · exact .starNil r
    · exact .starApp h1 h2

/-- The empty concatenation matches exactly the empty word. -/
theorem matches_cat_nil_iff (w : List Alphabet) :
    Matches (.concatenation []) w ↔ w = [] := by
  constructor
  · intro h; cases h; rfl
  · rintro rfl; exact .catNil

/-- Unfolding of a nonempty concatenation match into head and tail parts. -/
theorem matches_cat_cons_iff (r : RegexAst) (rs : List RegexAst)
    (w : List Alphabet) :
    Matches (.concatenation (r :: rs)) w ↔
      ∃ w1 w2, w = w1 ++ w2 ∧ Matches r w1 ∧ Matches (.concatenation rs) w2 := by
  constructor
  · intro h
    cases h with
    | catCons h1 h2 => exact ⟨_, _, rfl, h1, h2⟩
  · rintro ⟨w1, w2, rfl, h1, h2⟩
    exact .catCons h1 h2

/-- Unfolding of an alternation match: either the empty-children case or a
matching member. -/
theorem matches_alt_iff (rs : List RegexAst) (w : List Alphabet) :
    Matches (.alternation rs) w ↔
      (rs = [] ∧ w = []) ∨ ∃ r ∈ rs, Matches r w := by
  constructor
  · intro h
    cases h with
    | altNil => exact .inl ⟨rfl, rfl⟩
    | altMem hm hr => exact .inr ⟨_, hm, hr⟩
  · rintro (⟨rfl, rfl⟩ | ⟨r, hm, hr⟩)
    · exact .altNil
    · exact .altMem hm hr

/-! ## Star algebra and congruence lemmas -/

/-- The language of a `Star` is closed under word concatenation. -/
theorem matches_star_append {r : RegexAst} {w1 w2 : List Alphabet}
    (h1 : Matches (.star r) w1) (h2 : Matches (.star r) w2) :
    Matches (.star r) (w1 ++ w2) := by
  suffices aux : ∀ t w, Matches t w → t = .star r →
      Matches (.star r) (w ++ w2) from aux _ _ h1 rfl
  intro t w m
  induction m with
  | eps => intro ht; simp at ht
  | lit a => intro ht; simp at ht
  | starNil r0 => intro ht; simpa using h2
  | starApp m1 m2 ih1 ih2 =>
    intro ht
    injection ht with hr
    subst hr
    rw [List.append_assoc]
    exact .starApp m1 (ih2 rfl)
  | catNil => intro ht; simp at ht
  | catCons m1 m2 ih1 ih2 => intro ht; simp at ht
  | altNil => intro ht; simp at ht
  | altMem hm m ih => intro ht; simp at ht

/-- Collapsing a doubled `Star` preserves the language. -/
theorem matches_star_star (x : RegexAst) (w : List Alphabet) :
    Matches (.star (.star x)) w ↔ Matches (.star x) w := by
  constructor
  · intro h
    suffices aux : ∀ t w, Matches t w → t = .star (.star x) →
        Matches (.star x) w from aux _ _ h rfl
    intro t w m
    induction m with
    | eps => intro ht; simp at ht
    | lit a => intro ht; simp at ht
    | starNil r0 =>
      intro ht
      exact .starNil x
    | starApp m1 m2 ih1 ih2 =>
      intro ht
      injection ht with hr
      subst hr
      exact matches_star_append m1 (ih2 rfl)
    | catNil => intro ht; simp at ht
    | catCons m1 m2 ih1 ih2 => intro ht; simp at ht
    | altNil => intro ht; simp at ht
    | altMem hm m ih => intro ht; simp at ht
  · intro h
    simpa using Matches.starApp h (Matches.starNil (.star x))

/-- Language equivalence of the children lifts to `Star`. -/
theorem matches_star_congr {a b : RegexAst}
    (h : ∀ w, Matches a w ↔ Matches b w) :
    ∀ w, Matches (.star a) w ↔ Matches (.star b) w := by
  have aux : ∀ a b : RegexAst, (∀ w, Matches a w ↔ Matches b w) →
      ∀ t w, Matches t w → t = .star a → Matches (.star b) w := by
    intro a b hab t w m
    induction m with
    | eps => intro ht; simp at ht
    | lit c => intro ht; simp at ht
    | starNil r0 => intro ht; exact .starNil b
    | starApp m1 m2 ih1 ih2 =>
      intro ht
      injection ht with hr
      subst hr
      exact .starApp ((hab _).mp m1) (ih2 rfl)
    | catNil => intro ht; simp at ht
    | catCons m1 m2 ih1 ih2 => intro ht; simp at ht
    | altNil => intro ht; simp at ht
    | altMem hm m ih => intro ht; simp at ht
  intro w
  exact ⟨fun m => aux a b h _ _ m rfl,
    fun m => aux b a (fun v => (h v).symm) _ _ m rfl⟩

/-- Pointwise language equivalence of children lifts to `Concatenation`. -/
theorem matches_cat_congr {rs ss : List RegexAst}
    (h : List.Forall₂ (fun x y => ∀ w, Matches x w ↔ Matches y w) rs ss) :
    ∀ w, Matches (.concatenation rs) w ↔ Matches (.concatenation ss) w := by
  induction h with
  | nil => intro w; exact Iff.rfl
  | cons hxy hts ih =>
    intro w
    simp only [matches_cat_cons_iff]
    constructor
    · rintro ⟨w1, w2, rfl, h1, h2⟩
      exact ⟨w1, w2, rfl, (hxy w1).mp h1, (ih w2).mp h2⟩
    · rintro ⟨w1, w2, rfl, h1, h2⟩
      exact ⟨w1, w2, rfl, (hxy w1).mpr h1, (ih w2).mpr h2⟩

/-- Pointwise language equivalence transports matching members. -/
theorem alt_exists_congr {rs ss : List RegexAst}
    (h : List.Forall₂ (fun x y => ∀ w, Matches x w ↔ Matches y w) rs ss) :
    ∀ w, (∃ r ∈ rs, Matches r w) ↔ ∃ s ∈ ss, Matches s w := by
  induction h with
  | nil => intro w; simp
  | cons hxy hts ih =>
    intro w
    constructor
    · rintro ⟨r, hm, hr⟩
      rcases List.mem_cons.mp hm with rfl | hm2
      · exact ⟨_, List.mem_cons_self _ _, (hxy w).mp hr⟩
      · obtain ⟨s, hs, hrs⟩ := (ih w).mp ⟨r, hm2, hr⟩
        exact ⟨s, List.mem_cons_of_mem _ hs, hrs⟩
    · rintro ⟨s, hm, hs⟩
      rcases List.mem_cons.mp hm with rfl | hm2
      · exact ⟨_, List.mem_cons_self _ _, (hxy w).mpr hs⟩
      · obtain ⟨r, hr, hrr⟩ := (ih w).mpr ⟨s, hm2, hs⟩
        exact ⟨r, List.mem_cons_of_mem _ hr, hrr⟩

/-- Pointwise language equivalence of children lifts to `Alternation`. -/
theorem matches_alt_congr {rs ss : List RegexAst}
    (h : List.Forall₂ (fun x y => ∀ w, Matches x w ↔ Matches y w) rs ss) :
    ∀ w, Matches (.alternation rs) w ↔ Matches (.alternation ss) w := by
  intro w
  rw [matches_alt_iff, matches_alt_iff]
  have hnil : rs = [] ↔ ss = [] := by cases h <;> simp
  exact or_congr (and_congr hnil Iff.rfl) (alt_exists_congr h w)

/-- A map whose image is pointwise language-equivalent gives a `Forall₂`
relation against the original list. -/
theorem forall₂_map_self {f : RegexAst → RegexAst} {l : List RegexAst}
    (h : ∀ x ∈ l, ∀ w, Matches (f x) w ↔ Matches x w) :
    List.Forall₂ (fun a b => ∀ w, Matches a w ↔ Matches b w) (l.map f) l := by
  induction l with
  | nil => exact .nil
  | cons x xs ih =>
    exact .cons (h x (List.mem_cons_self x xs))
      (ih (fun y hy => h y (List.mem_cons_of_mem x hy)))

/-! ## Flattening preserves the denoted language: claim C4 -/

/-- A singleton concatenation denotes the language of its only child. -/
theorem matches_cat_singleton (x : RegexAst) (w : List Alphabet) :
    Matches (.concatenation [x]) w ↔ Matches x w := by
  rw [matches_cat_cons_iff]
  constructor
  · rintro ⟨w1, w2, rfl, h1, h2⟩
    rw [matches_cat_nil_iff] at h2
    subst h2
    simpa using h1
  · intro h
    exact ⟨w, [], by simp, h, .catNil⟩

/-- A singleton alternation denotes the language of its only child. -/
theorem matches_alt_singleton (x : RegexAst) (w : List Alphabet) :
    Matches (.alternation [x]) w ↔ Matches x w := by
  rw [matches_alt_iff]
  constructor
  · rintro (⟨h0, _⟩ | ⟨r, hr, hm⟩)
    · simp at h0
    · rw [List.mem_singleton.mp hr] at hm; exact hm
  · intro h
    exact .inr ⟨x, List.mem_singleton.mpr rfl, h⟩

/-- A concatenation of an appended child list splits the word accordingly. -/
theorem matches_cat_append (xs ys : List RegexAst) :
    ∀ w, Matches (.concatenation (xs ++ ys)) w ↔
      ∃ w1 w2, w = w1 ++ w2 ∧ Matches (.concatenation xs) w1 ∧
        Matches (.concatenation ys) w2 := by
  induction xs with
  | nil =>
    intro w
    simp only [List.nil_append, matches_cat_nil_iff]
    constructor
    · intro h; exact ⟨[], w, rfl, rfl, h⟩
    · rintro ⟨w1, w2, rfl, rfl, h⟩; simpa using h
  | cons x xs ih =>
    intro w
    simp only [List.cons_append, matches_cat_cons_iff]
    constructor
    · rintro ⟨w1, w2, rfl, hx, h2⟩
      obtain ⟨u1, u2, rfl, hu1, hu2⟩ := (ih w2).mp h2
      exact ⟨w1 ++ u1, u2, by rw [List.append_assoc], ⟨w1, u1, rfl, hx, hu1⟩, hu2⟩
    · rintro ⟨w1, w2, rfl, ⟨u1, u2, rfl, hu1, hu2⟩, hy⟩
      exact ⟨u1, u2 ++ w2, by rw [List.append_assoc], hu1,
        (ih (u2 ++ w2)).mpr ⟨u2, w2, rfl, hu2, hy⟩⟩

/-- Splicing direct `Concatenation` children preserves the language
(the empty concatenation denotes the empty-word language, the identity of
language concatenation, so this needs no well-formedness). -/
theorem matches_spliceCat (ts : List RegexAst) :
    ∀ w, Matches (.concatenation (spliceCat ts)) w ↔
      Matches (.concatenation ts) w := by
  induction ts with
  | nil => intro w; exact Iff.rfl
  | cons t ts ih =>
    intro w
    cases t with
    | concatenation xs =>
      simp only [spliceCat]
      rw [matches_cat_append, matches_cat_cons_iff]
      constructor
      · rintro ⟨w1, w2, rfl, h1, h2⟩; exact ⟨w1, w2, rfl, h1, (ih w2).mp h2⟩
      · rintro ⟨w1, w2, rfl, h1, h2⟩; exact ⟨w1, w2, rfl, h1, (ih w2).mpr h2⟩
    | epsilon =>
      simp only [spliceCat]
      rw [matches_cat_cons_iff, matches_cat_cons_iff]
      constructor
      · rintro ⟨w1, w2, rfl, h1, h2⟩; exact ⟨w1, w2, rfl, h1, (ih w2).mp h2⟩
      · rintro ⟨w1, w2, rfl, h1, h2⟩; exact ⟨w1, w2, rfl, h1, (ih w2).mpr h2⟩
    | literal a =>
      simp only [spliceCat]
      rw [matches_cat_cons_iff, matches_cat_cons_iff]
      constructor
      · rintro ⟨w1, w2, rfl, h1, h2⟩; exact ⟨w1, w2, rfl, h1, (ih w2).mp h2⟩
      · rintro ⟨w1, w2, rfl, h1, h2⟩; exact ⟨w1, w2, rfl, h1, (ih w2).mpr h2⟩
    | star r =>
      simp only [spliceCat]
      rw [matches_cat_cons_iff, matches_cat_cons_iff]
      constructor
      · rintro ⟨w1, w2, rfl, h1, h2⟩; exact ⟨w1, w2, rfl, h1, (ih w2).mp h2⟩
      · rintro ⟨w1, w2, rfl, h1, h2⟩; exact ⟨w1, w2, rfl, h1, (ih w2).mpr h2⟩
    | alternation xs =>
      simp only [spliceCat]
      rw [matches_cat_cons_iff, matches_cat_cons_iff]
      constructor
      · rintro ⟨w1, w2, rfl, h1, h2⟩; exact ⟨w1, w2, rfl, h1, (ih w2).mp h2⟩
      · rintro ⟨w1, w2, rfl, h1, h2⟩; exact ⟨w1, w2, rfl, h1, (ih w2).mpr h2⟩

/-- List form of `wellFormed` as a membership statement. -/
theorem wellFormedList_iff (l : List RegexAst) :
    wellFormedList l = true ↔ ∀ x ∈ l, wellFormed x = true := by
  induction l with
  | nil => simp [wellFormedList]
  | cons r rs ih => simp [wellFormedList, ih]

/-- Well-formedness of a concatenation node, unfolded. -/
theorem wellFormed_cat_iff (rs : List RegexAst) :
    wellFormed (.concatenation rs) = true ↔
      rs ≠ [] ∧ ∀ x ∈ rs, wellFormed x = true := by
  cases rs with
  | nil => simp [wellFormed]
  | cons r rs => simp [wellFormed, wellFormedList_iff]

/-- Well-formedness of an alternation node, unfolded. -/
theorem wellFormed_alt_iff (rs : List RegexAst) :
    wellFormed (.alternation rs) = true ↔
      rs ≠ [] ∧ ∀ x ∈ rs, wellFormed x = true := by
  cases rs with
  | nil => simp [wellFormed]
  | cons r rs => simp [wellFormed, wellFormedList_iff]

/-- The list helper of `flatten_alternations` is a `map`. -/
theorem flatten_alternations_list_eq_map (l : List RegexAst) :
    flatten_alternations_list l = l.map flatten_alternations := by
  induction l with
  | nil => rfl
  | cons r rs ih => simp [flatten_alternations_list, ih]

/-- The list helper of `flatten_consecutive_stars` is a `map`. -/
theorem flatten_consecutive_stars_list_eq_map (l : List RegexAst) :
    flatten_consecutive_stars_list l = l.map flatten_consecutive_stars := by
  induction l with
  | nil => rfl
  | cons r rs ih => simp [flatten_consecutive_stars_list, ih]

/-- Splicing a nonempty list of well-formed trees is nonempty. -/
theorem spliceAlt_ne_nil (ts : List RegexAst) (hne : ts ≠ [])
    (hwf : ∀ x ∈ ts, wellFormed x = true) : spliceAlt ts ≠ [] := by
  cases ts with
  | nil => exact absurd rfl hne
  | cons t ts =>
    cases t with
    | alternation xs =>
      have h := hwf (.alternation xs) (List.mem_cons_self _ _)
      cases xs with
      | nil => simp [wellFormed] at h
      | cons a as => simp [spliceAlt]
    | epsilon => simp [spliceAlt]
    | literal a => simp [spliceAlt]
    | star r => simp [spliceAlt]
    | concatenation xs => simp [spliceAlt]

/-- Elements of a spliced list of well-formed trees are well-formed. -/
theorem wellFormed_spliceAlt (ts : List RegexAst) :
    (∀ x ∈ ts, wellFormed x = true) →
      ∀ y ∈ spliceAlt ts, wellFormed y = true := by
  induction ts with
  | nil => intro _ y hy; simp [spliceAlt] at hy
  | cons t ts ih =>
    intro h y hy
    have hts := fun x hx => h x (List.mem_cons_of_mem t hx)
    cases t with
    | alternation xs =>
      simp only [spliceAlt] at hy
      rcases List.mem_append.mp hy with h1 | h2
      · have hx := h (.alternation xs) (List.mem_cons_self _ _)
        rw [wellFormed_alt_iff] at hx
        exact hx.2 y h1
      · exact ih hts y h2
    | epsilon =>
      simp only [spliceAlt] at hy
      rcases List.mem_cons.mp hy with rfl | h2
      · exact h _ (List.mem_cons_self _ _)
      · exact ih hts y h2
    | literal a =>
      simp only [spliceAlt] at hy
      rcases List.mem_cons.mp hy with rfl | h2
      · exact h _ (List.mem_cons_self _ _)
      · exact ih hts y h2
    | star r =>
      simp only [spliceAlt] at hy
      rcases List.mem_cons.mp hy with rfl | h2
      · exact h _ (List.mem_cons_self _ _)
      · exact ih hts y h2
    | concatenation xs =>
      simp only [spliceAlt] at hy
      rcases List.mem_cons.mp hy with rfl | h2
      · exact h _ (List.mem_cons_self _ _)
      · exact ih hts y h2

/-- Matching a member of a spliced list of well-formed trees is matching a
member of the original list. -/
theorem exists_spliceAlt (ts : List RegexAst) :
    (∀ x ∈ ts, wellFormed x = true) → ∀ w,
      ((∃ y ∈ spliceAlt ts, Matches y w) ↔ ∃ x ∈ ts, Matches x w) := by
  induction ts with
  | nil => intro _ w; simp [spliceAlt]
  | cons t ts ih =>
    intro hwf w
    have hts := fun x hx => hwf x (List.mem_cons_of_mem t hx)
    cases t with
    | alternation xs =>
      have hxs : xs ≠ [] := by
        have h := hwf (.alternation xs) (List.mem_cons_self _ _)
        rw [wellFormed_alt_iff] at h
        exact h.1
      simp only [spliceAlt]
      constructor
      · rintro ⟨y, hy, hm⟩
        rcases List.mem_append.mp hy with hy1 | hy2
        · exact ⟨.alternation xs, List.mem_cons_self _ _, .altMem hy1 hm⟩
        · obtain ⟨x, hx, hxm⟩ := (ih hts w).mp ⟨y, hy2, hm⟩
          exact ⟨x, List.mem_cons_of_mem _ hx, hxm⟩
      · rintro ⟨x, hx, hm⟩
        rcases List.mem_cons.mp hx with rfl | hx2
        · rcases (matches_alt_iff xs w).mp hm with ⟨hxs0, _⟩ | ⟨y, hy, hym⟩
          · exact absurd hxs0 hxs
          · exact ⟨y, List.mem_append.mpr (.inl hy), hym⟩
        · obtain ⟨y, hy, hym⟩ := (ih hts w).mpr ⟨x, hx2, hm⟩
          exact ⟨y, List.mem_append.mpr (.inr hy), hym⟩
    | epsilon =>
      simp only [spliceAlt]
      constructor
      · rintro ⟨y, hy, hm⟩
        rcases List.mem_cons.mp hy with rfl | hy2
        · exact ⟨_, List.mem_cons_self _ _, hm⟩
        · obtain ⟨x, hx, hxm⟩ := (ih hts w).mp ⟨y, hy2, hm⟩
          exact ⟨x, List.mem_cons_of_mem _ hx, hxm⟩
      · rintro ⟨x, hx, hm⟩
        rcases List.mem_cons.mp hx with rfl | hx2
        · exact ⟨_, List.mem_cons_self _ _, hm⟩
        · obtain ⟨y, hy, hym⟩ := (ih hts w).mpr ⟨x, hx2, hm⟩
          exact ⟨y, List.mem_cons_of_mem _ hy, hym⟩
    | literal a =>
      simp only [spliceAlt]
      constructor
      · rintro ⟨y, hy, hm⟩
        rcases List.mem_cons.mp hy with rfl | hy2
        · exact ⟨_, List.mem_cons_self _ _, hm⟩
        · obtain ⟨x, hx, hxm⟩ := (ih hts w).mp ⟨y, hy2, hm⟩
          exact ⟨x, List.mem_cons_of_mem _ hx, hxm⟩
      · rintro ⟨x, hx, hm⟩
        rcases List.mem_cons.mp hx with rfl | hx2
        · exact ⟨_, List.mem_cons_self _ _, hm⟩
        · obtain ⟨y, hy, hym⟩ := (ih hts w).mpr ⟨x, hx2, hm⟩
          exact ⟨y, List.mem_cons_of_mem _ hy, hym⟩
    | star r =>
      simp only [spliceAlt]
      constructor
      · rintro ⟨y, hy, hm⟩
        rcases List.mem_cons.mp hy with rfl | hy2
        · exact ⟨_, List.mem_cons_self _ _, hm⟩
        · obtain ⟨x, hx, hxm⟩ := (ih hts w).mp ⟨y, hy2, hm⟩
          exact ⟨x, List.mem_cons_of_mem _ hx, hxm⟩
      · rintro ⟨x, hx, hm⟩
        rcases List.mem_cons.mp hx with rfl | hx2
        · exact ⟨_, List.mem_cons_self _ _, hm⟩
        · obtain ⟨y, hy, hym⟩ := (ih hts w).mpr ⟨x, hx2, hm⟩
          exact ⟨y, List.mem_cons_of_mem _ hy, hym⟩
    | concatenation xs =>
      simp only [spliceAlt]
      constructor
      · rintro ⟨y, hy, hm⟩
        rcases List.mem_cons.mp hy with rfl | hy2
        · exact ⟨_, List.mem_cons_self _ _, hm⟩
        · obtain ⟨x, hx, hxm⟩ := (ih hts w).mp ⟨y, hy2, hm⟩
          exact ⟨x, List.mem_cons_of_mem _ hx, hxm⟩
      · rintro ⟨x, hx, hm⟩
        rcases List.mem_cons.mp hx with rfl | hx2
        · exact ⟨_, List.mem_cons_self _ _, hm⟩
        · obtain ⟨y, hy, hym⟩ := (ih hts w).mpr ⟨x, hx2, hm⟩
          exact ⟨y, List.mem_cons_of_mem _ hy, hym⟩

/-- `flatten_alternations` preserves well-formedness. -/
theorem wellFormed_fa :
    ∀ t, wellFormed t = true → wellFormed (flatten_alternations t) = true := by
  intro t
  induction t using RegexAst.recMem with
  | eps => intro h; exact h
  | lit a => intro h; exact h
  | str r ih =>
    intro h
    simp only [flatten_alternations, wellFormed] at h ⊢
    exact ih h
  | cat rs ih =>
    intro h
    rw [wellFormed_cat_iff] at h
    obtain ⟨hne, hmem⟩ := h
    simp only [flatten_alternations]
    rw [wellFormed_cat_iff]
    constructor
    · rw [flatten_alternations_list_eq_map]; simpa using hne
    · intro x hx
      rw [flatten_alternations_list_eq_map] at hx
      obtain ⟨y, hy, rfl⟩ := List.mem_map.mp hx
      exact ih y hy (hmem y hy)
  | alt rs ih =>
    intro h
    rw [wellFormed_alt_iff] at h
    obtain ⟨hne, hmem⟩ := h
    rcases rs with _ | ⟨x, _ | ⟨y, ys⟩⟩
    · exact absurd rfl hne
    · simp only [flatten_alternations]
      exact ih x (by simp) (hmem x (by simp))
    · have hwfl : ∀ z ∈ flatten_alternations_list (x :: y :: ys),
          wellFormed z = true := by
        rw [flatten_alternations_list_eq_map]
        intro z hz
        obtain ⟨u, hu, rfl⟩ := List.mem_map.mp hz
        exact ih u hu (hmem u hu)
      simp only [flatten_alternations]
      rw [wellFormed_alt_iff]
      refine ⟨spliceAlt_ne_nil _ ?_ hwfl, wellFormed_spliceAlt _ hwfl⟩
      rw [flatten_alternations_list_eq_map]
      simp

/-- `flatten_alternations` preserves the denoted language on well-formed
trees. -/
theorem matches_fa :
    ∀ t, wellFormed t = true → ∀ w,
      (Matches (flatten_alternations t) w ↔ Matches t w) := by
  intro t
  induction t using RegexAst.recMem with
  | eps => intro _ w; exact Iff.rfl
  | lit a => intro _ w; exact Iff.rfl
  | str r ih =>
    intro h w
    simp only [flatten_alternations]
    refine matches_star_congr (ih ?_) w
    simpa [wellFormed] using h
  | cat rs ih =>
    intro h w
    rw [wellFormed_cat_iff] at h
    simp only [flatten_alternations]
    rw [flatten_alternations_list_eq_map]
    exact matches_cat_congr
      (forall₂_map_self (fun x hx => ih x hx (h.2 x hx))) w
  | alt rs ih =>
    intro h w
    rw [wellFormed_alt_iff] at h
    obtain ⟨hne, hmem⟩ := h
    rcases rs with _ | ⟨x, _ | ⟨y, ys⟩⟩
    · exact absurd rfl hne
    · simp only [flatten_alternations]
      exact (ih x (by simp) (hmem x (by simp)) w).trans
        (matches_alt_singleton x w).symm
    · have hwfl : ∀ z ∈ flatten_alternations_list (x :: y :: ys),
          wellFormed z = true := by
        rw [flatten_alternations_list_eq_map]
        intro z hz
        obtain ⟨u, hu, rfl⟩ := List.mem_map.mp hz
        exact wellFormed_fa u (hmem u hu)
      have hsne : spliceAlt (flatten_alternations_list (x :: y :: ys)) ≠ [] := by
        refine spliceAlt_ne_nil _ ?_ hwfl
        rw [flatten_alternations_list_eq_map]
        simp
      simp only [flatten_alternations]
      rw [matches_alt_iff, matches_alt_iff]
      apply or_congr
      · exact iff_of_false (fun hp => hsne hp.1) (fun hp => by simp at hp)
      · refine (exists_spliceAlt _ hwfl w).trans ?_
        rw [flatten_alternations_list_eq_map]
        exact alt_exists_congr
          (forall₂_map_self (fun u hu => ih u hu (hmem u hu))) w

/-- `flatten_consecutive_concatenations` preserves the denoted language on
well-formed trees (its child lists are mapped by `flatten_alternations`,
whose preservation it relies on). -/
theorem matches_fc :
    ∀ t, wellFormed t = true → ∀ w,
      (Matches (flatten_consecutive_concatenations t) w ↔ Matches t w) := by
  intro t
  induction t using RegexAst.recMem with
  | eps => intro _ w; exact Iff.rfl
  | lit a => intro _ w; exact Iff.rfl
  | str r ih =>
    intro h w
    simp only [flatten_consecutive_concatenations]
    refine matches_star_congr (ih ?_) w
    simpa [wellFormed] using h
  | cat rs ih =>
    intro h w
    rw [wellFormed_cat_iff] at h
    obtain ⟨hne, hmem⟩ := h
    rcases rs with _ | ⟨x, _ | ⟨y, ys⟩⟩
    · exact absurd rfl hne
    · simp only [flatten_consecutive_concatenations]
      exact (ih x (by simp) (hmem x (by simp)) w).trans
        (matches_cat_singleton x w).symm
    · simp only [flatten_consecutive_concatenations]
      refine (matches_spliceCat _ w).trans ?_
      rw [flatten_alternations_list_eq_map]
      exact matches_cat_congr
        (forall₂_map_self (fun u hu => matches_fa u (hmem u hu))) w
  | alt rs ih =>
    intro h w
    rw [wellFormed_alt_iff] at h
    simp only [flatten_consecutive_concatenations]
    rw [flatten_alternations_list_eq_map]
    exact matches_alt_congr
      (forall₂_map_self (fun u hu => matches_fa u (h.2 u hu))) w

/-- C4: the claim that `flatten` preserves the denoted language fails on
the code: on `Star (Star (Literal A))` the star pass returns the
grand-child itself (`*grand_child`, regex_tree.rs line 347), stripping both
stars, so `flatten` maps the tree to `Literal A` — which no longer matches
the empty word that `Star (Star (Literal A))` matches.  This contradicts
`flatten`'s own doc comment (lines 364-365 and 371-373: `(a*)*` flattens to
`(a*)` and `[matches]` is preserved).  The first two passes do preserve the
language on data-model-conformant trees (`matches_fa`, `matches_fc`
above); the star pass alone breaks it. -/
theorem flatten_not_matches_preserving :
    flatten (.star (.star (.literal .A))) = .literal .A ∧
    Matches (.star (.star (.literal .A))) [] ∧
    ¬ Matches (.literal .A) [] := by
  refine ⟨rfl, .starNil _, ?_⟩
  intro h
  cases h

/-- The source's own star-flattening test (regex_tree.rs lines 677-680,
`"(((a)*)*)*"` flattening to `"a*"`) also holds of this embedding: with an
odd number of stars the pair-stripping of line 347 happens to land on a
single `Star`, which is why that test does not catch the bug exhibited by
`flatten_not_matches_preserving`. -/
theorem flatten_triple_star :
    flatten (.star (.star (.star (.literal .A)))) = .star (.literal .A) ∧
    flatten (.star (.star (.literal .A))) = .literal .A :=
  ⟨rfl, rfl⟩

/-! ## Alphabet fast-reject soundness: claim C5 -/

/-- Membership in the used set of a child list. -/
theorem mem_used_alphabets_list {a : Alphabet} {rs : List RegexAst} :
    a ∈ used_alphabets_list rs ↔ ∃ r ∈ rs, a ∈ used_alphabets r := by
  induction rs with
  | nil => simp [used_alphabets_list]
  | cons r rs ih => simp [used_alphabets_list, ih]

/-- Every symbol of a matched word is a used symbol of the tree. -/
theorem mem_used_of_matches :
    ∀ {t : RegexAst} {w : List Alphabet}, Matches t w →
      ∀ a ∈ w, a ∈ used_alphabets t := by
  intro t w m
  induction m with
  | eps => intro a ha; simp at ha
  | lit b =>
    intro a ha
    rw [List.mem_singleton.mp ha]
    simp [used_alphabets]
  | starNil r => intro a ha; simp at ha
  | starApp m1 m2 ih1 ih2 =>
    intro a ha
    rcases List.mem_append.mp ha with h | h
    · simpa [used_alphabets] using ih1 a h
    · exact ih2 a h
  | catNil => intro a ha; simp at ha
  | catCons m1 m2 ih1 ih2 =>
    intro a ha
    simp only [used_alphabets, used_alphabets_list, Finset.mem_union]
    rcases List.mem_append.mp ha with h | h
    · exact .inl (ih1 a h)
    · exact .inr (ih2 a h)
  | altNil => intro a ha; simp at ha
  | altMem hm m ih =>
    intro a ha
    simp only [used_alphabets]
    exact mem_used_alphabets_list.mpr ⟨_, hm, ih a ha⟩

/-- A list of trees that each match something has a word matching their
concatenation. -/
theorem exists_matches_list :
    ∀ rs : List RegexAst, (∀ r ∈ rs, ∃ w, Matches r w) →
      ∃ w, Matches (.concatenation rs) w := by
  intro rs
  induction rs with
  | nil => intro _; exact ⟨[], .catNil⟩
  | cons r rs ih =>
    intro h
    obtain ⟨w1, h1⟩ := h r (List.mem_cons_self r rs)
    obtain ⟨w2, h2⟩ := ih (fun x hx => h x (List.mem_cons_of_mem r hx))
    exact ⟨w1 ++ w2, .catCons h1 h2⟩

/-- Every tree denotes a nonempty language. -/
theorem exists_matches : ∀ t : RegexAst, ∃ w, Matches t w := by
  intro t
  induction t using RegexAst.recMem with
  | eps => exact ⟨[], .eps⟩
  | lit a => exact ⟨[a], .lit a⟩
  | str r ih => exact ⟨[], .starNil r⟩
  | cat rs ih => exact exists_matches_list rs ih
  | alt rs ih =>
    cases rs with
    | nil => exact ⟨[], .altNil⟩
    | cons r rs =>
      obtain ⟨w, hw⟩ := ih r (List.mem_cons_self r rs)
      exact ⟨w, .altMem (List.mem_cons_self r rs) hw⟩

/-- If some member of a list has a matching word containing `a`, the
concatenation of the list has one too. -/
theorem exists_matches_list_containing {a : Alphabet} :
    ∀ (rs : List RegexAst) (r0 : RegexAst), r0 ∈ rs →
      (∃ w0, Matches r0 w0 ∧ a ∈ w0) →
      ∃ w, Matches (.concatenation rs) w ∧ a ∈ w := by
  intro rs
  induction rs with
  | nil => intro r0 h0; simp at h0
  | cons x xs ih =>
    intro r0 h0 hw0
    obtain ⟨w0, m0, ha0⟩ := hw0
    rcases List.mem_cons.mp h0 with rfl | h0tail
    · obtain ⟨w2, m2⟩ := exists_matches_list xs (fun r _ => exists_matches r)
      exact ⟨w0 ++ w2, .catCons m0 m2, List.mem_append.mpr (.inl ha0)⟩
    · obtain ⟨w1, m1⟩ := exists_matches x
      obtain ⟨w2, m2, ha2⟩ := ih r0 h0tail ⟨w0, m0, ha0⟩
      exact ⟨w1 ++ w2, .catCons m1 m2, List.mem_append.mpr (.inr ha2)⟩

/-- Every used symbol of a tree is witnessed by some matched word that
contains it. -/
theorem exists_matches_containing :
    ∀ (t : RegexAst) (a : Alphabet), a ∈ used_alphabets t →
      ∃ w, Matches t w ∧ a ∈ w := by
  intro t
  induction t using RegexAst.recMem with
  | eps => intro a ha; simp [used_alphabets] at ha
  | lit b =>
    intro a ha
    simp only [used_alphabets, Finset.mem_singleton] at ha
    subst ha
    exact ⟨[a], .lit a, List.mem_singleton.mpr rfl⟩
  | str r ih =>
    intro a ha
    simp only [used_alphabets] at ha
    obtain ⟨w, m, hw⟩ := ih a ha
    exact ⟨w, by simpa using Matches.starApp m (Matches.starNil r), hw⟩
  | cat rs ih =>
    intro a ha
    simp only [used_alphabets] at ha
    obtain ⟨r0, hr0, ha0⟩ := mem_used_alphabets_list.mp ha
    exact exists_matches_list_containing rs r0 hr0 (ih r0 hr0 a ha0)
  | alt rs ih =>
    intro a ha
    simp only [used_alphabets] at ha
    obtain ⟨r0, hr0, ha0⟩ := mem_used_alphabets_list.mp ha
    obtain ⟨w, m, hw⟩ := ih r0 hr0 a ha0
    exact ⟨w, .altMem hr0 m, hw⟩

/-- C5: when the used-symbol sets differ, `equivalent_to` answers `false`
regardless of the automaton service, and that answer is semantically
correct: the two trees cannot denote the same language, since every tree
denotes a nonempty language and every used symbol occurs in some accepted
word. -/
theorem fast_reject_sound :
    ∀ (langEq : RegexAst → RegexAst → Bool) (a b : RegexAst),
      used_alphabets a ≠ used_alphabets b →
      equivalent_to langEq a b = false ∧ ¬ LangEquiv a b := by
  intro f a b hne
  refine ⟨by simp [equivalent_to, hne], ?_⟩
  intro heq
  apply hne
  apply Finset.Subset.antisymm
  · intro α hα
    obtain ⟨w, m, hw⟩ := exists_matches_containing a α hα
    exact mem_used_of_matches ((heq w).mp m) α hw
  · intro α hα
    obtain ⟨w, m, hw⟩ := exists_matches_containing b α hα
    exact mem_used_of_matches ((heq w).mpr m) α hw

/-- C5 witness: under any stub automaton service, `Literal A` versus
`Literal B` is fast-rejected and indeed not language-equivalent. -/
theorem fast_reject_sound_witness :
    used_alphabets (.literal .A) ≠ used_alphabets (.literal .B) ∧
    equivalent_to (fun _ _ => true) (.literal .A) (.literal .B) = false ∧
    ¬ LangEquiv (.literal .A) (.literal .B) :=
  ⟨by decide, fast_reject_sound (fun _ _ => true) (.literal .A) (.literal .B)
    (by decide)⟩
